import Mathlib

/-!
# RVirt bare-metal guest program (`main.c`)

A small-step model of the freestanding RISC-V program: the entry symbol
`_start`, `main`, `write_char`, `puts` and `abort`.  Every C statement and
every instruction of the two inline-assembly blocks is one program point;
the supervising environment is a parameter that answers each environment
call, possibly by never giving control back.
-/

namespace RVirt

/-! ## The machine -/

/-- An environment call as the supervisor sees it: the request code in `a7`
and the operand the assembly block binds to `a0` (`none` when the block binds
no operand, as in `abort`). -/
structure Ecall where
  a7 : Nat
  a0 : Option Nat
deriving DecidableEq, Repr

/-- The supervising environment.  It is given all requests issued so far, the
current one last, and either hands control back with a value in `a0`
(`some v`) or keeps control forever (`none`). -/
abbrev Env := List Ecall → Option Nat

/-- Program points of `main.c`, one per C statement or assembly instruction.
The `gen_` points belong to the loop that is commented out in `puts`. -/
inductive Loc
  | start_call     -- _start:     asm volatile ("call main");
  | start_end      -- _start:     closing brace
  | main_puts1     -- main:       puts("ABC");
  | main_puts2     -- main:       puts("XYZ");
  | main_abort     -- main:       abort();
  | main_return    -- main:       return 0;
  | wc_li          -- write_char: li a7, 1
  | wc_mv          -- write_char: mv a0, %0
  | wc_ecall       -- write_char: ecall
  | wc_end         -- write_char: closing brace
  | puts_0         -- puts:       write_char(str[0]);
  | puts_1         -- puts:       write_char(str[1]);
  | puts_2         -- puts:       write_char(str[2]);
  | puts_nl        -- puts:       write_char('\n');
  | puts_return    -- puts:       return 0;
  | abort_li       -- abort:      li a7, 8
  | abort_ecall    -- abort:      ecall
  | abort_while    -- abort:      while(1);
  | abort_end      -- abort:      closing brace
  | gen_init       -- loop:       int i = 0
  | gen_test       -- loop:       str[i] != 0
  | gen_body       -- loop:       write_char(str[i]);
  | gen_inc        -- loop:       i++
  | gen_nl         -- loop:       write_char('\n');
  | gen_return     -- loop:       return 0;
deriving DecidableEq, Repr

/-- What the processor is doing. -/
inductive Status
  | running    -- executing the program
  | held       -- an environment call was issued and control never came back
  | oob        -- an index expression read outside the addressable bytes
  | left       -- the outermost activation returned: control left the program
deriving DecidableEq, Repr

/-- Machine state.  `str` is the parameter of `puts` (the addressable bytes
starting at the pointer), `c` the parameter of `write_char`, `i` the loop
counter of the commented-out loop, `rv` the value of the last `return`
statement, `trace` the environment calls issued so far. -/
structure State where
  pc : Loc
  stack : List Loc
  status : Status
  a7 : Nat
  a0 : Nat
  str : List Nat
  c : Nat
  i : Nat
  rv : Int
  trace : List Ecall
deriving DecidableEq, Repr

/-- Function call: remember where to continue and jump to the callee. -/
def call (target next : Loc) (s : State) : State :=
  { s with pc := target, stack := next :: s.stack }

/-- Function return: continue at the remembered point of the caller. -/
def ret (s : State) : State :=
  match s.stack with
  | [] => { s with status := .left }
  | r :: rest => { s with pc := r, stack := rest }

/-- The `ecall` instruction: the request is handed to the environment, which
either resumes the program at the next instruction, leaving its answer in
`a0`, or never resumes it. -/
def ecall (env : Env) (req : Ecall) (next : Loc) (s : State) : State :=
  match env (s.trace ++ [req]) with
  | none => { s with trace := s.trace ++ [req], status := .held }
  | some v => { s with trace := s.trace ++ [req], a0 := v, pc := next }

/-- The statement `write_char(str[k]);`: the byte is read first, which fails
when index `k` is outside the addressable bytes. -/
def write_str (k : Nat) (next : Loc) (s : State) : State :=
  match s.str[k]? with
  | none => { s with status := .oob }
  | some b => call .wc_li next { s with c := b }

/-- The string literal `"ABC"` with its terminator. -/
def msgABC : List Nat := [65, 66, 67, 0]

/-- The string literal `"XYZ"` with its terminator. -/
def msgXYZ : List Nat := [88, 89, 90, 0]

/-- The character `'\n'`. -/
def newline : Nat := 10

/-- Entry point of `puts`: the body as written (`false`) or the commented-out
loop in place of the three fixed calls (`true`). -/
def putsEntry (generic : Bool) : Loc :=
  if generic then .gen_init else .puts_0

/-- Steps of `_start`: the call of `main`, and the return of `_start` itself
should `main` ever come back. -/
def _start (s : State) : State :=
  match s.pc with
  | .start_call => call .main_puts1 .start_end s
  | .start_end => ret s
  | _ => s

/-- Steps of `main`: the two calls of `puts` on the string literals, the call
of `abort`, and `return 0`. -/
def main (generic : Bool) (s : State) : State :=
  match s.pc with
  | .main_puts1 => call (putsEntry generic) .main_puts2 { s with str := msgABC }
  | .main_puts2 => call (putsEntry generic) .main_abort { s with str := msgXYZ }
  | .main_abort => call .abort_li .main_return s
  | .main_return => ret { s with rv := 0 }
  | _ => s

/-- Steps of `write_char`: the three instructions of the assembly block, whose
operand `%0` is the parameter `c`, and the return. -/
def write_char (env : Env) (s : State) : State :=
  match s.pc with
  | .wc_li => { s with a7 := 1, pc := .wc_mv }
  | .wc_mv => { s with a0 := s.c, pc := .wc_ecall }
  | .wc_ecall => ecall env ⟨s.a7, some s.a0⟩ .wc_end s
  | .wc_end => ret s
  | _ => s

/-- Steps of `puts` as written: three calls of `write_char` on the bytes at
indices 0, 1 and 2, one on the newline, and `return 0`. -/
def puts (s : State) : State :=
  match s.pc with
  | .puts_0 => write_str 0 .puts_1 s
  | .puts_1 => write_str 1 .puts_2 s
  | .puts_2 => write_str 2 .puts_nl s
  | .puts_nl => call .wc_li .puts_return { s with c := newline }
  | .puts_return => ret { s with rv := 0 }
  | _ => s

/-- Steps of `puts` with the commented-out loop
`for(int i = 0; str[i] != 0; i++) { write_char(str[i]); }` enabled in place of
the three fixed calls. -/
def puts_generic (s : State) : State :=
  match s.pc with
  | .gen_init => { s with i := 0, pc := .gen_test }
  | .gen_test =>
    match s.str[s.i]? with
    | none => { s with status := .oob }
    | some b => if b ≠ 0 then { s with pc := .gen_body } else { s with pc := .gen_nl }
  | .gen_body => write_str s.i .gen_inc s
  | .gen_inc => { s with i := s.i + 1, pc := .gen_test }
  | .gen_nl => call .wc_li .gen_return { s with c := newline }
  | .gen_return => ret { s with rv := 0 }
  | _ => s

/-- Steps of `abort`: the two instructions of the assembly block, which binds
no operand, and the loop `while(1);`, whose condition is the constant `1`. -/
def abort (env : Env) (s : State) : State :=
  match s.pc with
  | .abort_li => { s with a7 := 8, pc := .abort_ecall }
  | .abort_ecall => ecall env ⟨s.a7, none⟩ .abort_while s
  | .abort_while => if (1 : Int) ≠ 0 then s else { s with pc := .abort_end }
  | .abort_end => ret s
  | _ => s

/-- One step of the machine. -/
def step (generic : Bool) (env : Env) (s : State) : State :=
  match s.status with
  | .running =>
    match s.pc with
    | .start_call | .start_end => _start s
    | .main_puts1 | .main_puts2 | .main_abort | .main_return => main generic s
    | .wc_li | .wc_mv | .wc_ecall | .wc_end => write_char env s
    | .puts_0 | .puts_1 | .puts_2 | .puts_nl | .puts_return => puts s
    | .abort_li | .abort_ecall | .abort_while | .abort_end => abort env s
    | .gen_init | .gen_test | .gen_body | .gen_inc | .gen_nl | .gen_return => puts_generic s
  | _ => s

/-- The state after `n` steps. -/
def run (generic : Bool) (env : Env) : Nat → State → State
  | 0, s => s
  | n + 1, s => run generic env n (step generic env s)

/-- The state in which the loader invokes `_start`; nothing is assumed about
the two registers. -/
def boot (r7 r0 : Nat) : State :=
  { pc := .start_call, stack := [], status := .running, a7 := r7, a0 := r0,
    str := [], c := 0, i := 0, rv := 0, trace := [] }

/-! ## Calls made on their own -/

/-- A call of `abort` from any caller: control is at the first instruction of
`abort`, the stack of the caller is untouched. -/
def callAbort (s : State) : State :=
  { s with pc := .abort_li, status := .running }

/-- A call of `write_char(c)` on its own: when it returns, control leaves the
program. -/
def callWriteChar (c : Nat) (s : State) : State :=
  { s with pc := .wc_li, stack := [], status := .running, c := c }

/-- A call of `puts(str)` on its own. -/
def callPuts (str : List Nat) (s : State) : State :=
  { s with pc := .puts_0, stack := [], status := .running, str := str }

/-- A call of the loop variant of `puts` on its own. -/
def callPutsGeneric (str : List Nat) (s : State) : State :=
  { s with pc := .gen_init, stack := [], status := .running, str := str }

/-- Control at the loop test of the loop variant, on its own, with counter
`i` over the bytes `str`. -/
def genAt (s : State) (str : List Nat) (i : Nat) : State :=
  { s with pc := .gen_test, stack := [], status := .running, str := str, i := i }

/-- Calls of `write_char`, one after the other, each run to its return. -/
def writeAll (g : Bool) (env : Env) (cs : List Nat) (s : State) : State :=
  cs.foldl (fun t c => run g env 4 (callWriteChar c t)) s

/-- The arguments of the calls of `write_char` entered during the next `n`
steps, in order. -/
def wcCalls (g : Bool) (env : Env) : Nat → State → List Nat
  | 0, _ => []
  | n + 1, s =>
    (if s.pc = .wc_li ∧ s.status = .running then [s.c] else []) ++
      wcCalls g env n (step g env s)

/-! ## Requests, environments and phases -/

/-- The write-character request for `c`. -/
def wr (c : Nat) : Ecall := ⟨1, some c⟩

/-- The exit request. -/
def exitReq : Ecall := ⟨8, none⟩

/-- The eight characters of the two messages with their newlines. -/
def output : List Nat := [65, 66, 67, 10, 88, 89, 90, 10]

/-- All requests of a complete run. -/
def requests : List Ecall := output.map wr ++ [exitReq]

/-- The characters handed to the write-character request so far. -/
def written (s : State) : List Nat :=
  s.trace.filterMap fun e => if e.a7 = 1 then e.a0 else none

/-- The environment answers every write-character request. -/
def Serves (env : Env) : Prop := ∀ tr c, env (tr ++ [⟨1, some c⟩]) ≠ none

/-- An environment that answers every request with `0`. -/
def envZero : Env := fun _ => some 0

/-- An environment that answers every request with the error value `1`. -/
def envFail : Env := fun _ => some 1

/-- An environment that never gives control back. -/
def envNever : Env := fun _ => none

/-- The states of the control-flow machine of `main`. -/
inductive Phase
  | start | printedFirst | printedSecond | terminated
deriving DecidableEq, Repr

/-- Position of a phase in the sequence. -/
def Phase.rank : Phase → Nat
  | .start => 0
  | .printedFirst => 1
  | .printedSecond => 2
  | .terminated => 3

/-- The phase of a machine state: terminated once the exit request has been
issued; before that, the statement of `main` that is being executed or is
about to be. -/
def phase (s : State) : Phase :=
  if exitReq ∈ s.trace then .terminated
  else if s.pc = .main_abort ∨ .main_return ∈ s.stack then .printedSecond
  else if s.pc = .main_puts2 ∨ .main_abort ∈ s.stack then .printedFirst
  else .start

/-- One transition of the control-flow machine: stay, or move to the next
phase. -/
def Advances (p q : Phase) : Prop := q.rank = p.rank ∨ q.rank = p.rank + 1

instance (p q : Phase) : Decidable (Advances p q) := by
  unfold Advances
  infer_instance

/-! ## Comparison of runs -/

/-- Forget the two registers. -/
def norm (s : State) : State := { s with a7 := 0, a0 := 0 }

/-- Program points at which a callee resumes its caller. -/
def isRet : Loc → Bool
  | .start_end | .main_puts2 | .main_abort | .main_return
  | .puts_1 | .puts_2 | .puts_nl | .puts_return | .gen_inc | .gen_return => true
  | _ => false

/-- Well-formed states: the stack holds return points only, and inside the
assembly blocks the registers hold what the preceding instructions loaded. -/
def WF (s : State) : Prop :=
  (∀ r ∈ s.stack, isRet r = true) ∧ (s.pc = .wc_mv → s.a7 = 1) ∧
  (s.pc = .wc_ecall → s.a7 = 1 ∧ s.a0 = s.c) ∧ (s.pc = .abort_ecall → s.a7 = 8)

/-- Two states that differ in the registers only. -/
def Sim (s t : State) : Prop := norm s = norm t ∧ WF s ∧ WF t

/-- The request issued by the `ecall` at the program point of `t`, if any. -/
def pending (t : State) : Option Ecall :=
  match t.pc with
  | .wc_ecall => some ⟨1, some t.c⟩
  | .abort_ecall => some ⟨8, none⟩
  | _ => none

/-- The state `s` is `t` stopped inside its pending environment call, which
`env` never answers. -/
def HeldAt (env : Env) (s t : State) : Prop :=
  ∃ req, pending t = some req ∧ t.status = .running ∧ env (t.trace ++ [req]) = none ∧
    norm s = { norm t with status := .held, trace := t.trace ++ [req] } ∧ WF t

/-- The run of the program under the always-answering environment. -/
def canon (g : Bool) (k : Nat) : State := run g envZero k (boot 0 0)

/-- Number of steps after which the program as written (`false`) or with the
loop enabled (`true`) sits in `while(1);` when every request is answered. -/
def spinAt (g : Bool) : Nat := if g then 64 else 48

/-- Program points of `write_char` and of the two bodies of `puts`. -/
def inPuts : Loc → Bool
  | .wc_li | .wc_mv | .wc_ecall | .wc_end
  | .puts_0 | .puts_1 | .puts_2 | .puts_nl | .puts_return
  | .gen_init | .gen_test | .gen_body | .gen_inc | .gen_nl | .gen_return => true
  | _ => false

/-- Control is inside a call of `puts` made on its own. -/
def Local (s : State) : Prop :=
  inPuts s.pc = true ∧ ∀ r ∈ s.stack, inPuts r = true

/-! ## Theorems -/

theorem output_chars : output = "ABC\nXYZ\n".toList.map Char.toNat ∧
    msgABC = "ABC".toList.map Char.toNat ++ [0] ∧
    msgXYZ = "XYZ".toList.map Char.toNat ++ [0] ∧ newline = '\n'.toNat := by
  decide

theorem isRet_ne (r : Loc) (h : isRet r = true) :
    r ≠ .wc_mv ∧ r ≠ .wc_ecall ∧ r ≠ .abort_ecall := by
  cases r <;> simp_all [isRet]

theorem run_succ (g : Bool) (env : Env) (n : Nat) (s : State) :
    run g env (n + 1) s = step g env (run g env n s) := by
  induction n generalizing s with
  | zero => rfl
  | succ k ih => rw [run, ih]; rfl

theorem run_add (g : Bool) (env : Env) (m n : Nat) (s : State) :
    run g env (m + n) s = run g env n (run g env m s) := by
  induction m generalizing s with
  | zero => simp [run]
  | succ k ih => rw [Nat.add_right_comm, run, ih]; rfl

theorem step_sim (g : Bool) (env : Env) (s t : State) (h : Sim s t) :
    Sim (step g env s) (step g envZero t) ∨ HeldAt env (step g env s) t := by
  obtain ⟨hn, hs, ht⟩ := h
  rcases s with ⟨pc, stack, status, a7, a0, str, c, i, rv, trace⟩
  rcases t with ⟨pc2, stack2, status2, b7, b0, str2, c2, i2, rv2, trace2⟩
  simp only [norm, State.mk.injEq, true_and, and_true] at hn
  obtain ⟨rfl, rfl, rfl, rfl, rfl, rfl, rfl, rfl⟩ := hn
  cases status
  case running =>
    cases pc
    case wc_ecall =>
      have h7 : a7 = 1 ∧ a0 = c := hs.2.2.1 rfl
      have g7 : b7 = 1 ∧ b0 = c := ht.2.2.1 rfl
      obtain ⟨rfl, rfl⟩ := h7
      obtain ⟨rfl, rfl⟩ := g7
      cases he : env (trace ++ [⟨1, some b0⟩])
      · right
        refine ⟨⟨1, some b0⟩, rfl, rfl, he, ?_, ht⟩
        simp [step, write_char, ecall, he, norm]
      · left
        refine ⟨?_, ?_, ?_⟩
        · simp [step, write_char, ecall, he, norm, envZero]
        · simpa [step, write_char, ecall, he, WF] using hs.1
        · simpa [step, write_char, ecall, envZero, WF] using ht.1
    case abort_ecall =>
      have h7 : a7 = 8 := hs.2.2.2 rfl
      have g7 : b7 = 8 := ht.2.2.2 rfl
      subst h7 g7
      cases he : env (trace ++ [⟨8, none⟩])
      · right
        refine ⟨⟨8, none⟩, rfl, rfl, he, ?_, ht⟩
        simp [step, abort, ecall, he, norm]
      · left
        refine ⟨?_, ?_, ?_⟩
        · simp [step, abort, ecall, he, norm, envZero]
        · simpa [step, abort, ecall, he, WF] using hs.1
        · simpa [step, abort, ecall, envZero, WF] using ht.1
    case puts_0 =>
      left
      have hst : ∀ r ∈ stack, isRet r = true := hs.1
      cases hk : str[0]? <;>
        simp +decide [Sim, WF, norm, step, puts, puts_generic, call, write_str, hk] <;>
        exact hst
    case puts_1 =>
      left
      have hst : ∀ r ∈ stack, isRet r = true := hs.1
      cases hk : str[1]? <;>
        simp +decide [Sim, WF, norm, step, puts, puts_generic, call, write_str, hk] <;>
        exact hst
    case puts_2 =>
      left
      have hst : ∀ r ∈ stack, isRet r = true := hs.1
      cases hk : str[2]? <;>
        simp +decide [Sim, WF, norm, step, puts, puts_generic, call, write_str, hk] <;>
        exact hst
    case gen_body =>
      left
      have hst : ∀ r ∈ stack, isRet r = true := hs.1
      cases hk : str[i]? <;>
        simp +decide [Sim, WF, norm, step, puts, puts_generic, call, write_str, hk] <;>
        exact hst
    case gen_test =>
      left
      have hst : ∀ r ∈ stack, isRet r = true := hs.1
      rcases hk : str[i]? with _ | b
      · simpa +decide [Sim, WF, norm, step, puts_generic, hk] using hst
      · by_cases hb : b = 0 <;>
          simpa +decide [Sim, WF, norm, step, puts_generic, hk, hb] using hst
    case wc_mv =>
      left
      have hst : ∀ r ∈ stack, isRet r = true := hs.1
      have h7 : a7 = 1 := hs.2.1 rfl
      have g7 : b7 = 1 := ht.2.1 rfl
      simpa +decide [Sim, WF, norm, step, write_char, h7, g7] using hst
    all_goals
      left
      have hst : ∀ r ∈ stack, isRet r = true := hs.1
      clear hs ht
      rcases stack with _ | ⟨r, rest⟩
      · cases g <;>
          simp +decide [Sim, WF, norm, step, _start, main, write_char, puts, puts_generic, abort,
            call, ret, write_str, putsEntry]
      · have hr0 : isRet r = true := hst r (by simp)
        have hrest : ∀ a ∈ rest, isRet a = true := fun a ha => hst a (by simp [ha])
        have hr := isRet_ne r hr0
        cases g <;>
          simp +decide [Sim, WF, norm, step, _start, main, write_char, puts, puts_generic, abort,
            call, ret, write_str, putsEntry, hr, hr0] <;>
          exact hrest
  all_goals exact Or.inl ⟨by simp [step, norm], hs, ht⟩

theorem step_of_not_running (g : Bool) (env : Env) (s : State)
    (h : s.status ≠ .running) : step g env s = s := by
  unfold step
  split
  · next hq => exact absurd hq h
  · rfl

theorem run_of_not_running (g : Bool) (env : Env) (n : Nat) (s : State)
    (h : s.status ≠ .running) : run g env n s = s := by
  induction n with
  | zero => rfl
  | succ k ih => rw [run, step_of_not_running g env s h, ih]

theorem heldAt_status {env : Env} {s t : State} (h : HeldAt env s t) :
    s.status = .held := by
  obtain ⟨req, -, -, -, hn, -⟩ := h
  have := congrArg State.status hn
  simpa [norm] using this

/-- Under any environment the run agrees, registers apart, with the run under
the always-answering environment, until an environment call is not answered;
from then on the state no longer changes. -/
theorem sim_run (g : Bool) (env : Env) (s0 t0 : State) (h : Sim s0 t0) (n : Nat) :
    Sim (run g env n s0) (run g envZero n t0) ∨
      ∃ k, k < n ∧ HeldAt env (run g env n s0) (run g envZero k t0) := by
  induction n with
  | zero => exact Or.inl h
  | succ m ih =>
    rw [run_succ]
    rcases ih with hsim | ⟨k, hk, hheld⟩
    · rw [run_succ]
      rcases step_sim g env _ _ hsim with h1 | h2
      · exact Or.inl h1
      · exact Or.inr ⟨m, Nat.lt_succ_self m, h2⟩
    · right
      refine ⟨k, Nat.lt_succ_of_lt hk, ?_⟩
      rw [step_of_not_running g env _ (by rw [heldAt_status hheld]; decide)]
      exact hheld

theorem sim_trace {s t : State} (h : Sim s t) : s.trace = t.trace := by
  have := congrArg State.trace h.1
  simpa [norm] using this

theorem sim_pc {s t : State} (h : Sim s t) : s.pc = t.pc := by
  have := congrArg State.pc h.1
  simpa [norm] using this

theorem sim_stack {s t : State} (h : Sim s t) : s.stack = t.stack := by
  have := congrArg State.stack h.1
  simpa [norm] using this

theorem sim_status {s t : State} (h : Sim s t) : s.status = t.status := by
  have := congrArg State.status h.1
  simpa [norm] using this

theorem heldAt_next (g : Bool) {env : Env} {s t : State} (h : HeldAt env s t) :
    s.trace = (step g envZero t).trace ∧ s.pc = t.pc ∧ s.stack = t.stack := by
  obtain ⟨req, hp, hr, -, hn, hw⟩ := h
  have h1 := congrArg State.trace hn
  have h2 := congrArg State.pc hn
  have h3 := congrArg State.stack hn
  simp only [norm] at h1 h2 h3
  refine ⟨?_, h2, h3⟩
  rw [h1]
  rcases t with ⟨pc, stack, status, a7, a0, str, c, i, rv, trace⟩
  simp only at hr
  subst hr
  cases pc <;> simp [pending] at hp
  · obtain ⟨h7, h0⟩ := hw.2.2.1 rfl
    simp only at h7 h0
    subst h7 h0 hp
    simp [step, write_char, ecall, envZero]
  · have h7 := hw.2.2.2 rfl
    simp only at h7
    subst h7 hp
    simp [step, abort, ecall, envZero]

theorem heldAt_serves {env : Env} {s t : State} (hs : Serves env) (h : HeldAt env s t) :
    t.pc = .abort_ecall ∧ s.trace = t.trace ++ [exitReq] := by
  obtain ⟨req, hp, hr, he, hn, hw⟩ := h
  have h1 := congrArg State.trace hn
  simp only [norm] at h1
  rcases t with ⟨pc, stack, status, a7, a0, str, c, i, rv, trace⟩
  cases pc <;> simp [pending] at hp
  · subst hp
    exact absurd he (hs _ _)
  · subst hp
    exact ⟨rfl, h1⟩

theorem boot_sim (r7 r0 : Nat) : Sim (boot r7 r0) (boot 0 0) := by
  simp [Sim, WF, norm, boot]

theorem boot_run (g : Bool) (env : Env) (r7 r0 n : Nat) :
    Sim (run g env n (boot r7 r0)) (canon g n) ∨
      ∃ k, k < n ∧ HeldAt env (run g env n (boot r7 r0)) (canon g k) :=
  sim_run g env _ _ (boot_sim r7 r0) n

theorem step_spin (g : Bool) (env : Env) (s : State) (h : s.pc = .abort_while) :
    step g env s = s := by
  rcases s with ⟨pc, stack, status, a7, a0, str, c, i, rv, trace⟩
  simp only at h
  subst h
  cases status <;> simp [step, abort]

theorem run_spin (g : Bool) (env : Env) (n : Nat) (s : State) (h : s.pc = .abort_while) :
    run g env n s = s := by
  induction n with
  | zero => rfl
  | succ k ih => rw [run, step_spin g env s h, ih]

theorem canon_spin (g : Bool) (n : Nat) (h : spinAt g ≤ n) :
    canon g n = canon g (spinAt g) := by
  obtain ⟨m, rfl⟩ := Nat.exists_eq_add_of_le h
  unfold canon
  rw [run_add]
  apply run_spin
  cases g <;> decide

set_option maxRecDepth 100000 in
theorem canon_ecall : ∀ g : Bool, ∀ k < spinAt g,
    (canon g k).pc = .abort_ecall → k + 1 = spinAt g := by
  decide

set_option maxRecDepth 100000 in
theorem canon_trace_fixed : ∀ k < 49, (canon false k).trace <+: requests ∧
    (43 ≤ k → written (canon false k) = output) ∧
    (48 ≤ k → (canon false k).trace = requests) := by
  decide

theorem canon_trace (n : Nat) : (canon false n).trace <+: requests ∧
    (43 ≤ n → written (canon false n) = output) ∧
    (48 ≤ n → (canon false n).trace = requests) := by
  by_cases h : n < 49
  · exact canon_trace_fixed n h
  · have h48 : spinAt false ≤ n := by simp [spinAt]; omega
    rw [canon_spin false n h48]
    have := canon_trace_fixed 48 (by decide)
    exact ⟨this.1, fun _ => this.2.1 (by decide), fun _ => this.2.2 (by decide)⟩

/-- When every write-character request is answered, the requests issued after
`n` steps are those of the run in which every request is answered. -/
theorem trace_serves (g : Bool) (env : Env) (hs : Serves env) (r7 r0 n : Nat) :
    (run g env n (boot r7 r0)).trace = (canon g n).trace := by
  rcases boot_run g env r7 r0 n with h | ⟨k, hk, hheld⟩
  · exact sim_trace h
  · have hpc := (heldAt_serves hs hheld).1
    have hlt : k < spinAt g := by
      by_contra hge
      rw [canon_spin g k (by omega)] at hpc
      revert hpc
      cases g <;> decide
    have hk1 := canon_ecall g k hlt hpc
    rw [(heldAt_next g hheld).1, canon_spin g n (by omega), ← hk1]
    unfold canon
    rw [run_succ]

theorem written_requests : requests.filterMap (fun e => if e.a7 = 1 then e.a0 else none)
    = output := by
  decide

/-- Whatever the environment does, the requests issued after `n` steps are
those of some moment of the run in which every request is answered. -/
theorem trace_canon (g : Bool) (env : Env) (r7 r0 n : Nat) :
    ∃ m, m ≤ n ∧ (run g env n (boot r7 r0)).trace = (canon g m).trace := by
  rcases boot_run g env r7 r0 n with h | ⟨k, hk, hheld⟩
  · exact ⟨n, le_refl n, sim_trace h⟩
  · refine ⟨k + 1, hk, ?_⟩
    rw [(heldAt_next g hheld).1]
    unfold canon
    rw [run_succ]

/-- C1: the program writes exactly the characters of "ABC\nXYZ\n", in that
order: whatever the environment answers, the characters written so far are
always an initial part of these eight, and when the write requests are
answered all eight have been written after 43 steps and nothing is written
afterwards. -/
theorem main_output (env : Env) (r7 r0 : Nat) :
    (∀ n, written (run false env n (boot r7 r0)) <+: output) ∧
    (Serves env → ∀ n, 43 ≤ n → written (run false env n (boot r7 r0)) = output) := by
  constructor
  · intro n
    obtain ⟨m, -, hm⟩ := trace_canon false env r7 r0 n
    unfold written
    rw [hm, ← written_requests]
    exact (canon_trace m).1.filterMap _
  · intro hs n hn
    unfold written
    rw [trace_serves false env hs]
    exact (canon_trace n).2.1 hn

theorem serves_envZero : Serves envZero := by
  intro tr c
  simp [envZero]

theorem main_output_witness :
    written (run false envZero 43 (boot 0 0)) = output :=
  (main_output envZero 0 0).2 serves_envZero 43 (le_refl 43)

/-- A property of the first `spinAt g + 1` states of the run in which every
request is answered holds of all its states. -/
theorem canon_all (g : Bool) (P : State → Prop)
    (h : ∀ k < spinAt g + 1, P (canon g k)) (n : Nat) : P (canon g n) := by
  by_cases hn : n < spinAt g + 1
  · exact h n hn
  · rw [canon_spin g n (by omega)]
    exact h _ (Nat.lt_succ_self _)

set_option maxRecDepth 100000 in
theorem canon_inside (n : Nat) :
    (canon false n).pc ≠ .main_return ∧ (canon false n).pc ≠ .start_end ∧
    (canon false n).pc ≠ .abort_end ∧ (canon false n).status = .running :=
  canon_all false
    (fun s => s.pc ≠ .main_return ∧ s.pc ≠ .start_end ∧ s.pc ≠ .abort_end ∧
      s.status = .running)
    (by decide) n

/-- C9: `_start` hands control to the first statement of `main`, whatever the
registers hold and whatever the environment does, and from then on control is
never at `return 0` of `main`, never back in `_start` after the call, and
never leaves the program past the end of `_start`. -/
theorem start_never_returns (env : Env) (r7 r0 : Nat) :
    (run false env 1 (boot r7 r0)).pc = .main_puts1 ∧
    (run false env 1 (boot r7 r0)).stack = [.start_end] ∧
    ∀ n, (run false env n (boot r7 r0)).pc ≠ .main_return ∧
      (run false env n (boot r7 r0)).pc ≠ .start_end ∧
      (run false env n (boot r7 r0)).status ≠ .left := by
  refine ⟨rfl, rfl, fun n => ?_⟩
  rcases boot_run false env r7 r0 n with h | ⟨k, -, hheld⟩
  · have hc := canon_inside n
    rw [sim_pc h, sim_status h, hc.2.2.2]
    exact ⟨hc.1, hc.2.1, by decide⟩
  · have hc := canon_inside k
    rw [(heldAt_next false hheld).2.1, heldAt_status hheld]
    exact ⟨hc.1, hc.2.1, by decide⟩

/-- C7: the answers of the environment are never looked at: two environments
that answer the write requests with whatever values make the program issue
the same requests at every step, whatever the registers held at entry, and
from step 48 on these are the eight write requests followed by the exit
request, none repeated and none added. -/
theorem requests_independent (env1 env2 : Env) (h1 : Serves env1) (h2 : Serves env2)
    (r7 r0 q7 q0 : Nat) :
    (∀ n, (run false env1 n (boot r7 r0)).trace = (run false env2 n (boot q7 q0)).trace) ∧
    (∀ n, 48 ≤ n → (run false env1 n (boot r7 r0)).trace = requests) := by
  constructor
  · intro n
    rw [trace_serves false env1 h1, trace_serves false env2 h2]
  · intro n hn
    rw [trace_serves false env1 h1]
    exact (canon_trace n).2.2 hn

theorem serves_envFail : Serves envFail := by
  intro tr c
  simp [envFail]

theorem requests_independent_witness :
    (run false envZero 60 (boot 0 0)).trace = (run false envFail 60 (boot 7 9)).trace ∧
    (run false envZero 60 (boot 0 0)).trace = requests :=
  ⟨(requests_independent envZero envFail serves_envZero serves_envFail 0 0 7 9).1 60,
   (requests_independent envZero envFail serves_envZero serves_envFail 0 0 7 9).2 60
     (by decide)⟩

theorem phase_congr {s t : State} (h1 : s.pc = t.pc) (h2 : s.stack = t.stack)
    (h3 : s.trace = t.trace) : phase s = phase t := by
  simp [phase, h1, h2, h3]

theorem trace_step (g : Bool) (env : Env) (s : State) :
    s.trace <+: (step g env s).trace := by
  rcases s with ⟨pc, stack, status, a7, a0, str, c, i, rv, trace⟩
  cases status
  case running =>
    cases pc
    case puts_0 => cases hk : str[0]? <;> simp [step, puts, write_str, call, hk]
    case puts_1 => cases hk : str[1]? <;> simp [step, puts, write_str, call, hk]
    case puts_2 => cases hk : str[2]? <;> simp [step, puts, write_str, call, hk]
    case gen_body => cases hk : str[i]? <;> simp [step, puts_generic, write_str, call, hk]
    case gen_test =>
      rcases hk : str[i]? with _ | b
      · simp [step, puts_generic, hk]
      · by_cases hb : b = 0 <;> simp [step, puts_generic, hk, hb]
    case wc_ecall =>
      cases he : env (trace ++ [⟨a7, some a0⟩]) <;> simp [step, write_char, ecall, he]
    case abort_ecall =>
      cases he : env (trace ++ [⟨a7, none⟩]) <;> simp [step, abort, ecall, he]
    all_goals
      rcases stack with _ | ⟨r, rest⟩ <;>
        simp [step, _start, main, write_char, puts, puts_generic, abort, call, ret]
  all_goals simp [step]

theorem trace_run_le (g : Bool) (env : Env) (s : State) (n m : Nat) :
    (run g env n s).trace <+: (run g env (n + m) s).trace := by
  induction m with
  | zero => exact List.prefix_refl _
  | succ k ih =>
    rw [← Nat.add_assoc, run_succ]
    exact ih.trans (trace_step g env _)

set_option maxRecDepth 100000 in
theorem canon_advances (n : Nat) :
    Advances (phase (canon false n)) (phase (step false envZero (canon false n))) ∧
    Advances (phase (canon false n))
      (phase { canon false n with trace := (step false envZero (canon false n)).trace }) :=
  canon_all false
    (fun s => Advances (phase s) (phase (step false envZero s)) ∧
      Advances (phase s) (phase { s with trace := (step false envZero s).trace }))
    (by decide) n

set_option maxRecDepth 100000 in
theorem canon_phases : phase (canon false 23) = .printedFirst ∧
    phase (canon false 45) = .printedSecond ∧ (canon false 48).pc = .abort_while := by
  decide

theorem requests_of_exit (l : List Ecall) (h : l <+: requests) (he : exitReq ∈ l) :
    l = requests := by
  have key : ∀ l ∈ requests.inits, exitReq ∈ l → l = requests := by decide
  exact key l ((List.mem_inits _ _).2 h) he

theorem phase_terminated (s : State) : phase s = .terminated ↔ exitReq ∈ s.trace := by
  unfold phase
  constructor
  · intro h
    by_contra hne
    rw [if_neg hne] at h
    split_ifs at h
  · intro h
    rw [if_pos h]

theorem trace_requests (env : Env) (r7 r0 n : Nat) :
    (run false env n (boot r7 r0)).trace <+: requests := by
  obtain ⟨m, -, hm⟩ := trace_canon false env r7 r0 n
  rw [hm]
  exact (canon_trace m).1

/-- C8: the control flow is the linear machine start, printed-first,
printed-second, terminated.  Whatever the environment does, the program
starts in the first phase, each step stays in its phase or moves to the next
one, the requests issued so far are always an initial part of the eight write
requests followed by the single exit request, so that the exit request is
only ever issued after all eight write requests, and the terminated phase is
absorbing: no request is issued after the exit request, and when the exit
call gives control back the program stays in `while(1);` for ever.  When the
write requests are answered, the phases are passed one after the other and
from step 48 on the exit request has been issued exactly once, after the
eight write requests. -/
theorem control_flow (env : Env) (r7 r0 : Nat) :
    phase (boot r7 r0) = .start ∧
    (∀ n, Advances (phase (run false env n (boot r7 r0)))
      (phase (run false env (n + 1) (boot r7 r0)))) ∧
    (∀ n, (run false env n (boot r7 r0)).trace <+: requests) ∧
    (∀ n, ⟨8, none⟩ ∈ (run false env n (boot r7 r0)).trace →
      (run false env n (boot r7 r0)).trace = output.map wr ++ [⟨8, none⟩]) ∧
    (∀ n, phase (run false env n (boot r7 r0)) = .terminated →
      ∀ m, (run false env (n + m) (boot r7 r0)).trace = requests ∧
        phase (run false env (n + m) (boot r7 r0)) = .terminated) ∧
    (∀ n, (run false env n (boot r7 r0)).pc = .abort_while →
      ∀ m, run false env (n + m) (boot r7 r0) = run false env n (boot r7 r0)) ∧
    (Serves env →
      phase (run false env 23 (boot r7 r0)) = .printedFirst ∧
      phase (run false env 45 (boot r7 r0)) = .printedSecond ∧
      ∀ n, 48 ≤ n → (run false env n (boot r7 r0)).trace = requests ∧
        phase (run false env n (boot r7 r0)) = .terminated) := by
  refine ⟨by simp [phase, boot], ?_, trace_requests env r7 r0,
    fun n hn => requests_of_exit _ (trace_requests env r7 r0 n) hn, ?_, ?_, ?_⟩
  · intro n
    rcases boot_run false env r7 r0 n with h | ⟨k, -, hheld⟩
    · rw [run_succ, phase_congr (sim_pc h) (sim_stack h) (sim_trace h)]
      rcases step_sim false env _ _ h with h1 | h2
      · rw [phase_congr (sim_pc h1) (sim_stack h1) (sim_trace h1)]
        exact (canon_advances n).1
      · have h3 := heldAt_next false h2
        rw [phase_congr (t := { canon false n with
          trace := (step false envZero (canon false n)).trace }) h3.2.1 h3.2.2 h3.1]
        exact (canon_advances n).2
    · rw [run_succ, step_of_not_running false env _ (by rw [heldAt_status hheld]; decide)]
      exact Or.inl rfl
  · intro n hn m
    have h1 := requests_of_exit _ (trace_requests env r7 r0 n) ((phase_terminated _).1 hn)
    have h2 := trace_run_le false env (boot r7 r0) n m
    rw [h1] at h2
    have h3 := trace_requests env r7 r0 (n + m)
    have h4 : (run false env (n + m) (boot r7 r0)).trace = requests :=
      (h3.eq_of_length (Nat.le_antisymm h3.length_le h2.length_le))
    refine ⟨h4, (phase_terminated _).2 ?_⟩
    rw [h4]
    decide
  · intro n hn m
    rw [run_add]
    exact run_spin false env m _ hn
  · intro hs
    have key : ∀ n, phase (run false env n (boot r7 r0)) = phase (canon false n) := by
      intro n
      rcases boot_run false env r7 r0 n with h | ⟨k, hk, hheld⟩
      · exact phase_congr (sim_pc h) (sim_stack h) (sim_trace h)
      · have hpc := (heldAt_serves hs hheld).1
        have hlt : k < spinAt false := by
          by_contra hge
          rw [canon_spin false k (by omega)] at hpc
          revert hpc
          decide
        have hk1 := canon_ecall false k hlt hpc
        have h48 : 48 ≤ n := by simp [spinAt] at hk1; omega
        rw [(phase_terminated _).2, (phase_terminated _).2]
        · rw [(canon_trace n).2.2 h48]
          decide
        · rw [trace_serves false env hs, (canon_trace n).2.2 h48]
          decide
    refine ⟨?_, ?_, fun n hn => ⟨?_, ?_⟩⟩
    · rw [key]
      exact canon_phases.1
    · rw [key]
      exact canon_phases.2.1
    · rw [trace_serves false env hs]
      exact (canon_trace n).2.2 hn
    · rw [(phase_terminated _)]
      rw [trace_serves false env hs, (canon_trace n).2.2 hn]
      decide

set_option maxRecDepth 100000 in
theorem control_flow_witness :
    phase (run false envZero 23 (boot 0 0)) = .printedFirst ∧
    phase (run false envZero 45 (boot 0 0)) = .printedSecond ∧
    ((run false envZero 50 (boot 0 0)).trace = requests ∧
      phase (run false envZero 50 (boot 0 0)) = .terminated) ∧
    ((run false envZero (48 + 7) (boot 0 0)).trace = requests ∧
      phase (run false envZero (48 + 7) (boot 0 0)) = .terminated) ∧
    run false envZero (48 + 7) (boot 0 0) = run false envZero 48 (boot 0 0) :=
  ⟨((control_flow envZero 0 0).2.2.2.2.2.2 serves_envZero).1,
   ((control_flow envZero 0 0).2.2.2.2.2.2 serves_envZero).2.1,
   ((control_flow envZero 0 0).2.2.2.2.2.2 serves_envZero).2.2 50 (by decide),
   (control_flow envZero 0 0).2.2.2.2.1 48 (by decide) 7,
   (control_flow envZero 0 0).2.2.2.2.2.1 48 (by decide) 7⟩

theorem abort_two_steps (g : Bool) (env : Env) (s : State) :
    (env (s.trace ++ [exitReq]) = none ∧
      run g env 2 (callAbort s) =
        { s with trace := s.trace ++ [exitReq], pc := .abort_ecall, status := .held,
                 a7 := 8 }) ∨
    (∃ v, env (s.trace ++ [exitReq]) = some v ∧
      run g env 2 (callAbort s) =
        { s with trace := s.trace ++ [exitReq], pc := .abort_while, status := .running,
                 a7 := 8, a0 := v }) := by
  rcases he : env (s.trace ++ [exitReq]) with _ | v
  · left
    simp only [exitReq] at he
    simp [run, step, abort, ecall, callAbort, exitReq, he]
  · right
    simp only [exitReq] at he
    simp [run, step, abort, ecall, callAbort, exitReq, he]

/-- C4: `abort` never returns.  Called from any caller, under any environment,
control stays inside `abort` for ever and the stack of the caller is never
popped; the point after the loop is never reached.  From the second step on
exactly one request has been issued, the exit request with `a7 = 8`, and
nothing is issued after it: either the environment kept control, or it gave
control back and the program sits in `while(1);`. -/
theorem abort_never_returns (g : Bool) (env : Env) (s : State) (n : Nat) :
    (run g env n (callAbort s)).stack = s.stack ∧
    (run g env n (callAbort s)).pc ≠ .abort_end ∧
    (run g env n (callAbort s)).status ≠ .left ∧
    ((run g env n (callAbort s)).pc = .abort_li ∨
      (run g env n (callAbort s)).pc = .abort_ecall ∨
      (run g env n (callAbort s)).pc = .abort_while) ∧
    (n < 2 → (run g env n (callAbort s)).trace = s.trace) ∧
    (2 ≤ n → (run g env n (callAbort s)).trace = s.trace ++ [⟨8, none⟩] ∧
      (((run g env n (callAbort s)).status = .held ∧
          (run g env n (callAbort s)).pc = .abort_ecall) ∨
        ((run g env n (callAbort s)).status = .running ∧
          (run g env n (callAbort s)).pc = .abort_while))) := by
  rcases Nat.lt_or_ge n 2 with hn | hn
  · have h01 : n = 0 ∨ n = 1 := by omega
    rcases h01 with rfl | rfl
    · simp [run, callAbort]
    · simp [run, step, abort, callAbort]
  · obtain ⟨m, rfl⟩ := Nat.exists_eq_add_of_le hn
    rw [run_add]
    rcases abort_two_steps g env s with ⟨-, h⟩ | ⟨v, -, h⟩
    · rw [h, run_of_not_running g env m _ (by simp)]
      simp [exitReq]
    · rw [h, run_spin g env m _ rfl]
      simp [exitReq]

theorem abort_never_returns_witness :
    ((run false envZero 9 (callAbort (boot 0 0))).trace = (boot 0 0).trace ++ [⟨8, none⟩] ∧
      (((run false envZero 9 (callAbort (boot 0 0))).status = .held ∧
          (run false envZero 9 (callAbort (boot 0 0))).pc = .abort_ecall) ∨
        ((run false envZero 9 (callAbort (boot 0 0))).status = .running ∧
          (run false envZero 9 (callAbort (boot 0 0))).pc = .abort_while))) ∧
    (run false envNever 1 (callAbort (boot 0 0))).trace = (boot 0 0).trace :=
  ⟨(abort_never_returns false envZero (boot 0 0) 9).2.2.2.2.2 (by decide),
   (abort_never_returns false envNever (boot 0 0) 1).2.2.2.2.1 (by decide)⟩

theorem write_char_three_steps (g : Bool) (env : Env) (c : Nat) (s : State) :
    (env (s.trace ++ [wr c]) = none ∧
      run g env 3 (callWriteChar c s) =
        { s with trace := s.trace ++ [wr c], pc := .wc_ecall, stack := [], status := .held,
                 a7 := 1, a0 := c, c := c }) ∨
    (∃ v, env (s.trace ++ [wr c]) = some v ∧
      run g env 3 (callWriteChar c s) =
        { s with trace := s.trace ++ [wr c], pc := .wc_end, stack := [], status := .running,
                 a7 := 1, a0 := v, c := c }) := by
  rcases he : env (s.trace ++ [wr c]) with _ | v
  · left
    simp only [wr] at he
    simp [run, step, write_char, ecall, callWriteChar, wr, he]
  · right
    simp only [wr] at he
    simp [run, step, write_char, ecall, callWriteChar, wr, he]

theorem write_char_trace (g : Bool) (env : Env) (c : Nat) (s : State) (n : Nat) (hn : 3 ≤ n) :
    (run g env n (callWriteChar c s)).trace = s.trace ++ [wr c] := by
  obtain ⟨m, rfl⟩ := Nat.exists_eq_add_of_le hn
  rw [run_add]
  rcases write_char_three_steps g env c s with ⟨-, h⟩ | ⟨v, -, h⟩
  · rw [h, run_of_not_running g env m _ (by simp)]
  · rw [h]
    cases m with
    | zero => rfl
    | succ k =>
      rw [run]
      rw [run_of_not_running g env k _ (by simp [step, write_char, ret])]
      simp [step, write_char, ret]

theorem write_char_returns (g : Bool) (env : Env) (hs : Serves env) (c : Nat) (s : State) :
    ∃ v, run g env 4 (callWriteChar c s) =
      { s with trace := s.trace ++ [wr c], pc := .wc_end, stack := [], status := .left,
               a7 := 1, a0 := v, c := c } := by
  rcases write_char_three_steps g env c s with ⟨he, -⟩ | ⟨v, -, h⟩
  · exact absurd he (hs _ _)
  · refine ⟨v, ?_⟩
    rw [show 4 = 3 + 1 from rfl, run_add, h]
    simp [run, step, write_char, ret]

theorem written_append (s : State) (tr : List Ecall) (cs : List Nat)
    (h : tr = s.trace ++ cs.map wr) :
    tr.filterMap (fun e => if e.a7 = 1 then e.a0 else none) = written s ++ cs := by
  subst h
  simp only [written, List.filterMap_append, List.append_cancel_left_eq]
  induction cs with
  | nil => rfl
  | cons c cs ih => simp [wr, ih]

theorem writeAll_trace (g : Bool) (env : Env) (cs : List Nat) (s : State) :
    (writeAll g env cs s).trace = s.trace ++ cs.map wr := by
  induction cs generalizing s with
  | nil => simp [writeAll]
  | cons c cs ih =>
    have h : writeAll g env (c :: cs) s = writeAll g env cs (run g env 4 (callWriteChar c s)) :=
      rfl
    rw [h, ih, write_char_trace g env c s 4 (by decide)]
    simp

/-- C3: one call of `write_char(c)` issues exactly one environment call, with
`a7 = 1` and `a0 = c`: no request during the first two instructions, and from
the third step on, for ever, the requests are those issued before followed by
this one, whatever the environment answers.  When write requests are
answered the call returns after four steps with `c` appended to the
characters written, and calls made one after the other append their
characters in call order, one each. -/
theorem write_char_spec (g : Bool) (env : Env) (c : Nat) (s : State) :
    (∀ n, n < 3 → (run g env n (callWriteChar c s)).trace = s.trace) ∧
    (∀ n, 3 ≤ n → (run g env n (callWriteChar c s)).trace = s.trace ++ [⟨1, some c⟩]) ∧
    (Serves env →
      (run g env 4 (callWriteChar c s)).status = .left ∧
      written (run g env 4 (callWriteChar c s)) = written s ++ [c] ∧
      ∀ cs : List Nat, written (writeAll g env cs s) = written s ++ cs ∧
        (written (writeAll g env cs s)).length = (written s).length + cs.length) := by
  refine ⟨fun n hn => ?_, fun n hn => write_char_trace g env c s n hn, fun hs => ?_⟩
  · have h012 : n = 0 ∨ n = 1 ∨ n = 2 := by omega
    rcases h012 with rfl | rfl | rfl <;> simp [run, step, write_char, callWriteChar]
  · obtain ⟨v, hv⟩ := write_char_returns g env hs c s
    refine ⟨by rw [hv], ?_, fun cs => ?_⟩
    · exact written_append s _ [c] (by rw [hv]; rfl)
    · have h := written_append s _ cs (writeAll_trace g env cs s)
      exact ⟨h, by rw [written, h]; simp⟩

theorem write_char_spec_witness :
    (run false envZero 4 (callWriteChar 65 (boot 0 0))).status = .left ∧
    written (run false envZero 4 (callWriteChar 65 (boot 0 0))) = written (boot 0 0) ++ [65] ∧
    written (writeAll false envZero [72, 105, 33] (boot 0 0)) =
      written (boot 0 0) ++ [72, 105, 33] :=
  ⟨((write_char_spec false envZero 65 (boot 0 0)).2.2 serves_envZero).1,
   ((write_char_spec false envZero 65 (boot 0 0)).2.2 serves_envZero).2.1,
   (((write_char_spec false envZero 65 (boot 0 0)).2.2 serves_envZero).2.2 [72, 105, 33]).1⟩

theorem local_step (g : Bool) (env : Env) (s : State) (h : Local s) :
    Local (step g env s) := by
  obtain ⟨hpc, hst⟩ := h
  rcases s with ⟨pc, stack, status, a7, a0, str, c, i, rv, trace⟩
  simp only at hpc hst
  cases status
  case running =>
    cases pc
    case puts_0 =>
      cases hk : str[0]? <;> simp +decide [Local, step, puts, write_str, call, hk] <;> exact hst
    case puts_1 =>
      cases hk : str[1]? <;> simp +decide [Local, step, puts, write_str, call, hk] <;> exact hst
    case puts_2 =>
      cases hk : str[2]? <;> simp +decide [Local, step, puts, write_str, call, hk] <;> exact hst
    case gen_body =>
      cases hk : str[i]? <;>
        simp +decide [Local, step, puts_generic, write_str, call, hk] <;> exact hst
    case gen_test =>
      rcases hk : str[i]? with _ | b
      · simpa +decide [Local, step, puts_generic, hk] using hst
      · by_cases hb : b = 0 <;> simpa +decide [Local, step, puts_generic, hk, hb] using hst
    case wc_ecall =>
      cases he : env (trace ++ [⟨a7, some a0⟩]) <;>
        simpa +decide [Local, step, write_char, ecall, he] using hst
    all_goals
      first
        | exact absurd hpc (by decide)
        | (rcases stack with _ | ⟨r, rest⟩
           · simp +decide [Local, step, write_char, puts, puts_generic, call, ret]
           · have hr : inPuts r = true := hst r (by simp)
             have hrest : ∀ a ∈ rest, inPuts a = true := fun a ha => hst a (by simp [ha])
             simp +decide [Local, step, write_char, puts, puts_generic, call, ret, hr]
             exact hrest)
  all_goals exact ⟨hpc, hst⟩

theorem local_run (g : Bool) (env : Env) (s : State) (h : Local s) (n : Nat) :
    Local (run g env n s) := by
  induction n generalizing s with
  | zero => exact h
  | succ k ih => exact ih _ (local_step g env s h)

/-- Inside a call of `puts`, an environment that answers the write requests
is matched by the always-answering one step by step, registers apart. -/
theorem sim_local (g : Bool) (env : Env) (hs : Serves env) (s0 t0 : State)
    (h : Sim s0 t0) (hl : Local t0) (n : Nat) :
    Sim (run g env n s0) (run g envZero n t0) := by
  rcases sim_run g env s0 t0 h n with h1 | ⟨k, -, hheld⟩
  · exact h1
  · have hpc := (heldAt_serves hs hheld).1
    have hloc := (local_run g envZero t0 hl k).1
    rw [hpc] at hloc
    exact absurd hloc (by decide)

theorem puts_canon (g : Bool) (a b c : Nat) (rest : List Nat) (s : State) :
    run g envZero 21 (callPuts (a :: b :: c :: rest) s) =
      { s with trace := s.trace ++ [wr a, wr b, wr c, wr newline], pc := .puts_return,
               stack := [], status := .left, a7 := 1, a0 := 0, str := a :: b :: c :: rest,
               c := newline, rv := 0 } ∧
    wcCalls g envZero 21 (callPuts (a :: b :: c :: rest) s) = [a, b, c, newline] := by
  constructor
  · simp [run, step, puts, write_str, call, write_char, ecall, envZero, ret, callPuts, wr]
  · simp [wcCalls, step, puts, write_str, call, write_char, ecall, envZero, ret, callPuts]

theorem wcCalls_add (g : Bool) (env : Env) (m n : Nat) (s : State) :
    wcCalls g env (m + n) s = wcCalls g env m s ++ wcCalls g env n (run g env m s) := by
  induction m generalizing s with
  | zero => simp [wcCalls, run]
  | succ k ih => rw [Nat.add_right_comm, wcCalls, ih, wcCalls, run, List.append_assoc]

theorem wcCalls_stopped (g : Bool) (env : Env) (n : Nat) (s : State)
    (h : s.status ≠ .running) : wcCalls g env n s = [] := by
  induction n with
  | zero => rfl
  | succ k ih => simp [wcCalls, h, step_of_not_running g env s h, ih]

theorem sim_c {s t : State} (h : Sim s t) : s.c = t.c := by
  have := congrArg State.c h.1
  simpa [norm] using this

theorem sim_rv {s t : State} (h : Sim s t) : s.rv = t.rv := by
  have := congrArg State.rv h.1
  simpa [norm] using this

theorem wcCalls_sim (g : Bool) (env : Env) (hs : Serves env) (n : Nat) (s t : State)
    (h : Sim s t) (hl : Local t) : wcCalls g env n s = wcCalls g envZero n t := by
  induction n generalizing s t with
  | zero => rfl
  | succ k ih =>
    rw [wcCalls, wcCalls, sim_pc h, sim_status h, sim_c h]
    have h1 : Sim (step g env s) (step g envZero t) := sim_local g env hs s t h hl 1
    rw [ih _ _ h1 (local_step g envZero t hl)]

theorem sim_refl_of_entry (s : State) (h1 : s.stack = []) (h2 : inPuts s.pc = true)
    (h3 : s.pc ≠ .wc_mv) (h4 : s.pc ≠ .wc_ecall) : Sim s s ∧ Local s := by
  have hw : WF s := by
    refine ⟨by simp [h1], fun h => absurd h h3, fun h => absurd h h4, fun h => ?_⟩
    rw [h] at h2
    exact absurd h2 (by decide)
  exact ⟨⟨rfl, hw, hw⟩, h2, by simp [h1]⟩

theorem run_stopped (g : Bool) (env : Env) (m n : Nat) (s : State)
    (h : (run g env m s).status ≠ .running) (hn : m ≤ n) :
    run g env n s = run g env m s := by
  obtain ⟨k, rfl⟩ := Nat.exists_eq_add_of_le hn
  rw [run_add, run_of_not_running g env k _ h]

/-- C2: for every byte sequence with at least three addressable bytes, a call
of `puts` enters `write_char` exactly four times, with the bytes at indices 0,
1, 2 and then the newline, issues exactly the four corresponding write
requests, and returns 0, whatever the bytes are (the write requests being
answered, with whatever values). -/
theorem puts_spec (g : Bool) (env : Env) (hs : Serves env) (str : List Nat)
    (h3 : 3 ≤ str.length) (s : State) (n : Nat) (hn : 21 ≤ n) :
    wcCalls g env n (callPuts str s) = [str[0], str[1], str[2], newline] ∧
    (run g env n (callPuts str s)).trace =
      s.trace ++ [⟨1, some str[0]⟩, ⟨1, some str[1]⟩, ⟨1, some str[2]⟩, ⟨1, some newline⟩] ∧
    (run g env n (callPuts str s)).status = .left ∧
    (run g env n (callPuts str s)).rv = 0 := by
  obtain ⟨a, b, c, rest, rfl⟩ : ∃ a b c rest, str = a :: b :: c :: rest := by
    match str, h3 with
    | a :: b :: c :: rest, _ => exact ⟨a, b, c, rest, rfl⟩
  obtain ⟨hsim, hloc⟩ := sim_refl_of_entry (callPuts (a :: b :: c :: rest) s) rfl rfl
    (by simp [callPuts]) (by simp [callPuts])
  have hc := puts_canon g a b c rest s
  have hfin : run g envZero n (callPuts (a :: b :: c :: rest) s) =
      run g envZero 21 (callPuts (a :: b :: c :: rest) s) :=
    run_stopped g envZero 21 n _ (by rw [hc.1]; simp) hn
  have h := sim_local g env hs _ _ hsim hloc n
  rw [hfin, hc.1] at h
  refine ⟨?_, ?_, ?_, ?_⟩
  · obtain ⟨m, rfl⟩ := Nat.exists_eq_add_of_le hn
    rw [wcCalls_sim g env hs _ _ _ hsim hloc, wcCalls_add, hc.2, hc.1,
      wcCalls_stopped g envZero m _ (by simp)]
    simp
  · rw [sim_trace h]
    simp [wr]
  · rw [sim_status h]
  · rw [sim_rv h]

theorem puts_spec_witness :
    wcCalls false envZero 21 (callPuts msgABC (boot 0 0)) = [65, 66, 67, 10] ∧
    (run false envZero 21 (callPuts msgABC (boot 0 0))).trace =
      [⟨1, some 65⟩, ⟨1, some 66⟩, ⟨1, some 67⟩, ⟨1, some 10⟩] ∧
    (run false envZero 21 (callPuts msgABC (boot 0 0))).status = .left ∧
    (run false envZero 21 (callPuts msgABC (boot 0 0))).rv = 0 :=
  puts_spec false envZero serves_envZero msgABC (by decide) (boot 0 0) 21 (le_refl 21)

theorem puts_canon_short (g : Bool) (a b : Nat) (s : State) :
    run g envZero 1 (callPuts [] s) =
      { s with pc := .puts_0, stack := [], status := .oob, str := [] } ∧
    run g envZero 6 (callPuts [a] s) =
      { s with trace := s.trace ++ [wr a], pc := .puts_1, stack := [], status := .oob,
               a7 := 1, a0 := 0, str := [a], c := a } ∧
    run g envZero 11 (callPuts [a, b] s) =
      { s with trace := s.trace ++ [wr a, wr b], pc := .puts_2, stack := [], status := .oob,
               a7 := 1, a0 := 0, str := [a, b], c := b } := by
  refine ⟨?_, ?_, ?_⟩ <;>
    simp [run, step, puts, write_str, call, write_char, ecall, envZero, ret, callPuts, wr]

theorem puts_in_bounds (g : Bool) (env : Env) (str : List Nat) (h3 : 3 ≤ str.length)
    (s : State) (n : Nat) : (run g env n (callPuts str s)).status ≠ .oob := by
  obtain ⟨a, b, c, rest, rfl⟩ : ∃ a b c rest, str = a :: b :: c :: rest := by
    match str, h3 with
    | a :: b :: c :: rest, _ => exact ⟨a, b, c, rest, rfl⟩
  obtain ⟨hsim, -⟩ := sim_refl_of_entry (callPuts (a :: b :: c :: rest) s) rfl rfl
    (by simp [callPuts]) (by simp [callPuts])
  have hc := (puts_canon g a b c rest s).1
  have hz : ∀ k, (run g envZero k (callPuts (a :: b :: c :: rest) s)).status ≠ .oob := by
    intro k hk
    rcases Nat.le_total k 21 with hle | hle
    · have := run_stopped g envZero k 21 _ (by rw [hk]; decide) hle
      rw [hc] at this
      rw [← this] at hk
      simp at hk
    · have := run_stopped g envZero 21 k _ (by rw [hc]; simp) hle
      rw [this, hc] at hk
      simp at hk
  rcases sim_run g env _ _ hsim n with h | ⟨k, -, hheld⟩
  · rw [sim_status h]
    exact hz n
  · rw [heldAt_status hheld]
    decide

theorem puts_out_of_bounds (g : Bool) (env : Env) (hs : Serves env) (str : List Nat)
    (h3 : str.length < 3) (s : State) (n : Nat) (hn : 11 ≤ n) :
    (run g env n (callPuts str s)).status = .oob ∧
    (run g env n (callPuts str s)).trace = s.trace ++ str.map wr := by
  obtain ⟨hsim, hloc⟩ := sim_refl_of_entry (callPuts str s) rfl rfl
    (by simp [callPuts]) (by simp [callPuts])
  have h := sim_local g env hs _ _ hsim hloc n
  rw [sim_status h, sim_trace h]
  match str, h3 with
  | [], _ =>
    have hc := (puts_canon_short g 0 0 s).1
    rw [run_stopped g envZero 1 n _ (by rw [hc]; simp) (by omega), hc]
    simp
  | [a], _ =>
    have hc := (puts_canon_short g a 0 s).2.1
    rw [run_stopped g envZero 6 n _ (by rw [hc]; simp) (by omega), hc]
    simp
  | [a, b], _ =>
    have hc := (puts_canon_short g a b s).2.2
    rw [run_stopped g envZero 11 n _ (by rw [hc]; simp) (by omega), hc]
    simp

/-- C5: `puts` checks no length.  Given a two-character sequence it does not
refuse it: the two characters are written, and then the read at index 2, which
is outside the sequence, happens at the third call statement.  In general an
out-of-bounds read happens if and only if the sequence has fewer than three
addressable bytes; with three or more it never happens, under any
environment. -/
theorem puts_no_length_check (g : Bool) (env : Env) (s : State) :
    (Serves env → ∀ a b n, 11 ≤ n →
      (run g env n (callPuts [a, b] s)).status = .oob ∧
      (run g env n (callPuts [a, b] s)).pc = .puts_2 ∧
      (run g env n (callPuts [a, b] s)).str[2]? = none ∧
      (run g env n (callPuts [a, b] s)).trace = s.trace ++ [⟨1, some a⟩, ⟨1, some b⟩]) ∧
    (Serves env → ∀ str : List Nat,
      (∃ n, (run g env n (callPuts str s)).status = .oob) ↔ str.length < 3) ∧
    (∀ str : List Nat, 3 ≤ str.length →
      ∀ n, (run g env n (callPuts str s)).status ≠ .oob) := by
  refine ⟨fun hs a b n hn => ?_, fun hs str => ⟨?_, ?_⟩, fun str h3 n =>
    puts_in_bounds g env str h3 s n⟩
  · obtain ⟨hsim, hloc⟩ := sim_refl_of_entry (callPuts [a, b] s) rfl rfl
      (by simp [callPuts]) (by simp [callPuts])
    have h := sim_local g env hs _ _ hsim hloc n
    have hc := (puts_canon_short g a b s).2.2
    rw [run_stopped g envZero 11 n _ (by rw [hc]; simp) hn, hc] at h
    have hstr := congrArg State.str h.1
    simp only [norm] at hstr
    rw [sim_status h, sim_pc h, sim_trace h, hstr]
    simp [wr]
  · rintro ⟨n, hn⟩
    by_contra hge
    exact puts_in_bounds g env str (by omega) s n hn
  · intro h3
    exact ⟨11, (puts_out_of_bounds g env hs str h3 s 11 (le_refl 11)).1⟩

theorem puts_no_length_check_witness :
    ((run false envZero 11 (callPuts [72, 105] (boot 0 0))).status = .oob ∧
      (run false envZero 11 (callPuts [72, 105] (boot 0 0))).pc = .puts_2 ∧
      (run false envZero 11 (callPuts [72, 105] (boot 0 0))).str[2]? = none ∧
      (run false envZero 11 (callPuts [72, 105] (boot 0 0))).trace =
        (boot 0 0).trace ++ [⟨1, some 72⟩, ⟨1, some 105⟩]) ∧
    ((∃ n, (run false envZero n (callPuts [72] (boot 0 0))).status = .oob) ↔
      [72].length < 3) ∧
    (run false envZero 30 (callPuts [72, 105, 33] (boot 0 0))).status ≠ .oob :=
  ⟨(puts_no_length_check false envZero (boot 0 0)).1 serves_envZero 72 105 11 (le_refl 11),
   (puts_no_length_check false envZero (boot 0 0)).2.1 serves_envZero [72],
   (puts_no_length_check false envZero (boot 0 0)).2.2 [72, 105, 33] (by decide) 30⟩

theorem puts_result (g : Bool) (env : Env) (hs : Serves env) (a b c : Nat)
    (rest : List Nat) (s : State) (n : Nat) (hn : 21 ≤ n) :
    (run g env n (callPuts (a :: b :: c :: rest) s)).trace =
      s.trace ++ [wr a, wr b, wr c, wr newline] ∧
    (run g env n (callPuts (a :: b :: c :: rest) s)).status = .left ∧
    (run g env n (callPuts (a :: b :: c :: rest) s)).rv = 0 := by
  obtain ⟨hsim, hloc⟩ := sim_refl_of_entry (callPuts (a :: b :: c :: rest) s) rfl rfl
    (by simp [callPuts]) (by simp [callPuts])
  have hc := (puts_canon g a b c rest s).1
  have h := sim_local g env hs _ _ hsim hloc n
  rw [run_stopped g envZero 21 n _ (by rw [hc]; simp) hn, hc] at h
  exact ⟨sim_trace h, sim_status h, sim_rv h⟩

/-- C6: `puts` depends on the first three bytes only.  Two byte sequences of
at least three bytes that agree at indices 0, 1 and 2 make `puts` issue the
same requests and return the same value, whatever their lengths and wherever
a NUL byte stands; the characters written are the three bytes and the newline,
a NUL byte among them included. -/
theorem puts_first_three (g : Bool) (env : Env) (hs : Serves env) (str1 str2 : List Nat)
    (h1 : 3 ≤ str1.length) (h2 : 3 ≤ str2.length)
    (h : str1[0] = str2[0] ∧ str1[1] = str2[1] ∧ str1[2] = str2[2])
    (s : State) (n : Nat) (hn : 21 ≤ n) :
    (run g env n (callPuts str1 s)).trace = (run g env n (callPuts str2 s)).trace ∧
    (run g env n (callPuts str1 s)).rv = (run g env n (callPuts str2 s)).rv ∧
    (run g env n (callPuts str1 s)).status = (run g env n (callPuts str2 s)).status ∧
    written (run g env n (callPuts str1 s)) =
      written s ++ [str1[0], str1[1], str1[2], newline] := by
  obtain ⟨a, b, c, rest, rfl⟩ : ∃ a b c rest, str1 = a :: b :: c :: rest := by
    match str1, h1 with
    | a :: b :: c :: rest, _ => exact ⟨a, b, c, rest, rfl⟩
  obtain ⟨a2, b2, c2, rest2, rfl⟩ : ∃ a b c rest, str2 = a :: b :: c :: rest := by
    match str2, h2 with
    | a :: b :: c :: rest, _ => exact ⟨a, b, c, rest, rfl⟩
  simp only [List.getElem_cons_zero, List.getElem_cons_succ] at h ⊢
  obtain ⟨rfl, rfl, rfl⟩ := h
  have r1 := puts_result g env hs a b c rest s n hn
  have r2 := puts_result g env hs a b c rest2 s n hn
  refine ⟨by rw [r1.1, r2.1], by rw [r1.2.2, r2.2.2], by rw [r1.2.1, r2.2.1], ?_⟩
  exact written_append s _ [a, b, c, newline] r1.1

theorem puts_first_three_witness :
    (run false envZero 21 (callPuts [0, 66, 0] (boot 0 0))).trace =
      (run false envZero 21 (callPuts [0, 66, 0, 68, 69, 0] (boot 0 0))).trace ∧
    (run false envZero 21 (callPuts [0, 66, 0] (boot 0 0))).rv =
      (run false envZero 21 (callPuts [0, 66, 0, 68, 69, 0] (boot 0 0))).rv ∧
    (run false envZero 21 (callPuts [0, 66, 0] (boot 0 0))).status =
      (run false envZero 21 (callPuts [0, 66, 0, 68, 69, 0] (boot 0 0))).status ∧
    written (run false envZero 21 (callPuts [0, 66, 0] (boot 0 0))) =
      written (boot 0 0) ++ [0, 66, 0, 10] :=
  puts_first_three false envZero serves_envZero [0, 66, 0] [0, 66, 0, 68, 69, 0]
    (by decide) (by decide) ⟨rfl, rfl, rfl⟩ (boot 0 0) 21 (le_refl 21)

theorem gen_iter (g : Bool) (s : State) (str : List Nat) (i b : Nat)
    (h : str[i]? = some b) (hb : b ≠ 0) :
    run g envZero 7 (genAt s str i) =
      genAt { s with trace := s.trace ++ [wr b], a7 := 1, a0 := 0, c := b } str (i + 1) := by
  simp [run, step, puts_generic, write_str, call, write_char, ecall, envZero, ret, genAt, wr,
    h, hb]

theorem gen_exit (g : Bool) (s : State) (str : List Nat) (i : Nat) (h : str[i]? = some 0) :
    run g envZero 7 (genAt s str i) =
      { s with trace := s.trace ++ [wr newline], pc := .gen_return, stack := [],
               status := .left, a7 := 1, a0 := 0, str := str, c := newline, i := i,
               rv := 0 } := by
  simp [run, step, puts_generic, write_str, call, write_char, ecall, envZero, ret, genAt, wr,
    h]

theorem gen_loop (g : Bool) (body : List Nat) (hb : ∀ b ∈ body, b ≠ 0) :
    ∀ (pre : List Nat) (s : State), ∃ r7 r0 c,
      run g envZero (7 * body.length) (genAt s (pre ++ body ++ [0]) pre.length) =
        genAt { s with trace := s.trace ++ body.map wr, a7 := r7, a0 := r0, c := c }
          (pre ++ body ++ [0]) (pre.length + body.length) := by
  induction body with
  | nil =>
    intro pre s
    exact ⟨s.a7, s.a0, s.c, by simp [run, genAt]⟩
  | cons b bs ih =>
    intro pre s
    have hb0 : b ≠ 0 := hb b (by simp)
    have hget : (pre ++ (b :: bs) ++ [0])[pre.length]? = some b := by
      rw [List.append_assoc, List.getElem?_append_right (le_refl _)]
      simp
    have hstr : pre ++ (b :: bs) ++ [0] = (pre ++ [b]) ++ bs ++ [0] := by simp
    obtain ⟨r7, r0, c, hrun⟩ := ih (fun x hx => hb x (by simp [hx])) (pre ++ [b])
      { s with trace := s.trace ++ [wr b], a7 := 1, a0 := 0, c := b }
    refine ⟨r7, r0, c, ?_⟩
    rw [show 7 * (b :: bs).length = 7 + 7 * bs.length by simp [Nat.mul_succ, Nat.add_comm],
      run_add, gen_iter g s _ _ b hget hb0, hstr]
    have hlen : pre.length + 1 = (pre ++ [b]).length := by simp
    rw [hlen, hrun]
    simp [genAt, Nat.add_assoc, Nat.add_comm 1]

theorem gen_canon (g : Bool) (body : List Nat) (hb : ∀ b ∈ body, b ≠ 0) (s : State) :
    (run g envZero (7 * body.length + 8) (callPutsGeneric (body ++ [0]) s)).trace =
      s.trace ++ body.map wr ++ [wr newline] ∧
    (run g envZero (7 * body.length + 8) (callPutsGeneric (body ++ [0]) s)).status = .left ∧
    (run g envZero (7 * body.length + 8) (callPutsGeneric (body ++ [0]) s)).rv = 0 := by
  have h1 : run g envZero 1 (callPutsGeneric (body ++ [0]) s) =
      genAt s ([] ++ body ++ [0]) ([] : List Nat).length := by
    simp [run, step, puts_generic, callPutsGeneric, genAt]
  obtain ⟨r7, r0, c, hrun⟩ := gen_loop g body hb [] s
  have hget : ([] ++ body ++ [0])[([] : List Nat).length + body.length]? = some 0 := by simp
  rw [show 7 * body.length + 8 = 1 + (7 * body.length + 7) by omega, run_add, h1, run_add,
    hrun, gen_exit g _ _ _ hget]
  simp

theorem gen_result (g : Bool) (env : Env) (hs : Serves env) (body : List Nat)
    (hb : ∀ b ∈ body, b ≠ 0) (s : State) (n : Nat) (hn : 7 * body.length + 8 ≤ n) :
    (run g env n (callPutsGeneric (body ++ [0]) s)).trace =
      s.trace ++ (body ++ [newline]).map wr ∧
    (run g env n (callPutsGeneric (body ++ [0]) s)).status = .left ∧
    (run g env n (callPutsGeneric (body ++ [0]) s)).rv = 0 := by
  obtain ⟨hsim, hloc⟩ := sim_refl_of_entry (callPutsGeneric (body ++ [0]) s) rfl rfl
    (by simp [callPutsGeneric]) (by simp [callPutsGeneric])
  have hc := gen_canon g body hb s
  have h := sim_local g env hs _ _ hsim hloc n
  rw [run_stopped g envZero (7 * body.length + 8) n _ (by rw [hc.2.1]; decide) hn] at h
  rw [sim_trace h, sim_status h, sim_rv h]
  refine ⟨?_, hc.2.1, hc.2.2⟩
  rw [hc.1]
  simp

theorem puts_written (g : Bool) (env : Env) (hs : Serves env) (body : List Nat)
    (s : State) (n : Nat) (hn : 21 ≤ n) :
    written (run g env n (callPuts (body ++ [0]) s)) = written s ++
      match body with
      | [] => [0]
      | [a] => [a, 0]
      | [a, b] => [a, b, 0, newline]
      | a :: b :: c :: _ => [a, b, c, newline] := by
  match body with
  | [] =>
    exact written_append s _ [0]
      (puts_out_of_bounds g env hs [0] (by decide) s n (by omega)).2
  | [a] =>
    exact written_append s _ [a, 0]
      (puts_out_of_bounds g env hs [a, 0] (by simp) s n (by omega)).2
  | [a, b] =>
    have h := (puts_result g env hs a b 0 [] s n hn).1
    exact written_append s _ [a, b, 0, newline] (by simpa using h)
  | a :: b :: c :: rest =>
    have h := (puts_result g env hs a b c (rest ++ [0]) s n hn).1
    exact written_append s _ [a, b, c, newline] (by simpa using h)

set_option maxRecDepth 100000 in
theorem canon_generic : (canon true 64).trace = requests := by
  decide

/-- C10: the fixed-length `puts` and the routine of the commented-out loop
(every byte before the first NUL, then the newline, result 0) write the same
characters exactly on the strings of length three: for every NUL-terminated
string, once both calls have finished, the characters written are the same if
and only if three characters precede the terminator.  The loop routine writes
the characters before the terminator and the newline and returns 0.  The
program with the loop enabled issues the same requests as the program as
written, both messages having length three. -/
theorem puts_agrees_with_loop (g : Bool) (env : Env) (hs : Serves env) (body : List Nat)
    (hb : ∀ b ∈ body, b ≠ 0) (s : State) (n : Nat) (hn : 7 * body.length + 21 ≤ n) :
    (written (run g env n (callPuts (body ++ [0]) s)) =
        written (run g env n (callPutsGeneric (body ++ [0]) s)) ↔ body.length = 3) ∧
    written (run g env n (callPutsGeneric (body ++ [0]) s)) =
      written s ++ body ++ [newline] ∧
    (run g env n (callPutsGeneric (body ++ [0]) s)).status = .left ∧
    (run g env n (callPutsGeneric (body ++ [0]) s)).rv = 0 ∧
    (∀ r7 r0 m, 64 ≤ m →
      (run true env m (boot r7 r0)).trace = (run false env m (boot r7 r0)).trace ∧
      written (run true env m (boot r7 r0)) = output) := by
  have hg := gen_result g env hs body hb s n (by omega)
  have hgw : written (run g env n (callPutsGeneric (body ++ [0]) s)) =
      written s ++ (body ++ [newline]) := written_append s _ _ hg.1
  have hf := puts_written g env hs body s n (by omega)
  refine ⟨?_, by rw [hgw, List.append_assoc], hg.2.1, hg.2.2, fun r7 r0 m hm => ?_⟩
  · rw [hf, hgw, List.append_cancel_left_eq]
    match body, hb with
    | [], _ => simp [newline]
    | [a], _ => simp [newline]
    | [a, b], _ => simp
    | [a, b, c], _ => simp
    | a :: b :: c :: d :: rest, _ => simp
  · have h1 : (run true env m (boot r7 r0)).trace = requests := by
      rw [trace_serves true env hs, canon_spin true m (by simpa [spinAt] using hm)]
      exact canon_generic
    have h2 : (run false env m (boot r7 r0)).trace = requests := by
      rw [trace_serves false env hs]
      exact (canon_trace m).2.2 (by omega)
    refine ⟨by rw [h1, h2], ?_⟩
    rw [written, h1]
    exact written_requests

theorem puts_agrees_with_loop_witness :
    (written (run false envZero 42 (callPuts ([72, 105, 33] ++ [0]) (boot 0 0))) =
        written (run false envZero 42 (callPutsGeneric ([72, 105, 33] ++ [0]) (boot 0 0))) ↔
      [72, 105, 33].length = 3) ∧
    written (run false envZero 42 (callPutsGeneric ([72, 105, 33] ++ [0]) (boot 0 0))) =
      written (boot 0 0) ++ [72, 105, 33] ++ [newline] :=
  ⟨(puts_agrees_with_loop false envZero serves_envZero [72, 105, 33] (by decide) (boot 0 0) 42
      (by decide)).1,
   (puts_agrees_with_loop false envZero serves_envZero [72, 105, 33] (by decide) (boot 0 0) 42
      (by decide)).2.1⟩

end RVirt
